import Mathlib

/-!
# Verification of the terra-profile service core

Shallow embedding of the service's core modules, translated from the source:

* `Crypto` — the per-value encryption module (`crypto.js`): AES-256-CBC via
  `crypto.createCipheriv`/`createDecipheriv` with base64-encoded IVs and
  ciphertexts.  The AES-256 block permutation itself is an external library
  primitive, so it is a parameter `E` (with inverse `D`) acting on 16-byte
  blocks; the CBC chaining mode, the PKCS#7 padding applied by
  `cipher.update`/`cipher.final`, and the base64 value encoding are embedded
  concretely.  Bytes are `Nat` below 256; base64 text is modelled at the
  value level as lists of sextets (`Nat` below 64) — the character table is a
  fixed bijection and is abstracted away.
* `Ekvdb` — the encrypted key-value store (`encryptedkvdb.js`), parametric
  over the injected cipher object, exactly as the source module takes its
  `crypto` argument.  The MySQL table is a list of rows; an UPDATE affects
  every row matching its WHERE clause and reports the number of affected
  rows, an INSERT appends one row and reports 1.
* `ServerMw` / `ServerS` — the two service variants in `server.js`: the
  middleware-based variant and the module-singleton variant.  Their `withAuth`
  resolvers and `/shibboleth-token` handlers are embedded as pure functions of
  the request data and of the outcomes of the external collaborators
  (token introspection status, public-key fetch status, RS256 signature
  validity), producing the response(s) sent, the trace of store/network
  effects, and the resulting store table.
-/

namespace TerraProfile

/-! ## Crypto module (`crypto.js`) -/

namespace Crypto

/-- Base64 at the value level: 3 bytes become 4 sextets; a 2-byte tail becomes
3 sextets and a 1-byte tail becomes 2 sextets (the `=` padding characters
carry no value and are dropped). -/
def b64Encode : List Nat → List Nat
  | a :: b :: c :: rest =>
      a / 4 :: ((a % 4) * 16 + b / 16) :: ((b % 16) * 4 + c / 64) :: (c % 64) :: b64Encode rest
  | [a, b] => [a / 4, (a % 4) * 16 + b / 16, (b % 16) * 4]
  | [a] => [a / 4, (a % 4) * 16]
  | [] => []

/-- Base64 decoding at the value level (inverse of `b64Encode`); a dangling
single sextet decodes to no byte, as in `Buffer.from(_, 'base64')`. -/
def b64Decode : List Nat → List Nat
  | w :: x :: y :: z :: rest =>
      (w * 4 + x / 16) :: ((x % 16) * 16 + y / 4) :: ((y % 4) * 64 + z) :: b64Decode rest
  | [w, x, y] => [w * 4 + x / 16, (x % 16) * 16 + y / 4]
  | [w, x] => [w * 4 + x / 16]
  | _ => []

/-- Block padding (PKCS#7) to the 16-byte AES block size, as applied by
`cipher.update`/`cipher.final`. -/
def pad16 (l : List Nat) : List Nat :=
  l ++ List.replicate (16 - l.length % 16) (16 - l.length % 16)

/-- Block unpadding (PKCS#7) with validation, as applied by `decipher.final`. -/
def unpad16 (l : List Nat) : Option (List Nat) :=
  match l.getLast? with
  | none => none
  | some k =>
    if 1 ≤ k ∧ k ≤ 16 ∧ k ≤ l.length ∧ (l.drop (l.length - k)).all (fun x => x == k) then
      some (l.take (l.length - k))
    else none

/-- Bytewise exclusive or, as used by the CBC chaining mode. -/
def xorBytes (a b : List Nat) : List Nat := List.zipWith (fun x y => x ^^^ y) a b

/-- Split a byte string into consecutive 16-byte blocks. -/
def toBlocks : List Nat → List (List Nat)
  | [] => []
  | a :: rest => (a :: rest).take 16 :: toBlocks ((a :: rest).drop 16)
termination_by l => l.length
decreasing_by simp [List.length_drop]; omega

/-- CBC encryption of a list of 16-byte blocks: each block is xored with the
previous ciphertext block (initially the IV) and passed through the block
permutation `E`. -/
def cbcEnc (E : List Nat → List Nat) (prev : List Nat) : List (List Nat) → List (List Nat)
  | [] => []
  | b :: bs =>
      let c := E (xorBytes b prev)
      c :: cbcEnc E c bs

/-- CBC decryption: each ciphertext block is passed through the inverse
permutation `D` and xored with the previous ciphertext block (initially the
IV). -/
def cbcDec (D : List Nat → List Nat) (prev : List Nat) : List (List Nat) → List (List Nat)
  | [] => []
  | c :: cs => xorBytes (D c) prev :: cbcDec D c cs

/-- The calls `crypto.createCipheriv`/`createDecipheriv` decode the base64 IV and
reject it unless it is exactly 16 bytes (`Invalid initialization vector`). -/
def createCipherIv (ivBase64 : List Nat) : Option (List Nat) :=
  let iv := b64Decode ivBase64
  if iv.length = 16 then some iv else none

inductive CipherOut where
  | ok (cipheredBase64 : List Nat)
  | invalidIv
deriving DecidableEq

/-- The function `cipherValueToBase64(ivBase64, value)` from `crypto.js`.  The source
computes a fallback IV `ivBase64 || crypto.randomBytes(16).toString('base64')`
(modelled by the `randomIvBase64` argument) but passes the original `ivBase64`
to `createCipher`; the fallback binding is kept here, unused, exactly as in
the source. -/
def cipherValueToBase64 (E : List Nat → List Nat) (randomIvBase64 : List Nat)
    (ivBase64 : List Nat) (value : List Nat) : CipherOut :=
  let _iv := if ivBase64.isEmpty then randomIvBase64 else ivBase64
  match createCipherIv ivBase64 with
  | none => .invalidIv
  | some iv => .ok (b64Encode ((cbcEnc E iv (toBlocks (pad16 value))).flatten))

inductive DecipherOut where
  | ok (bytes : List Nat)
  | invalidIv
  | wrongBlockLength
  | badPadding
deriving DecidableEq

/-- The function `decipherValueFromBase64(ivBase64, cipheredValueBase64)` from
`crypto.js`: decode the IV (16 bytes required), decode the ciphertext (a
whole number of 16-byte blocks required), CBC-decrypt, strip and validate the
PKCS#7 padding. -/
def decipherValueFromBase64 (D : List Nat → List Nat) (ivBase64 : List Nat)
    (cipheredValueBase64 : List Nat) : DecipherOut :=
  match createCipherIv ivBase64 with
  | none => .invalidIv
  | some iv =>
    let ct := b64Decode cipheredValueBase64
    if ct.length % 16 = 0 then
      match unpad16 ((cbcDec D iv (toBlocks ct)).flatten) with
      | some bytes => .ok bytes
      | none => .badPadding
    else .wrongBlockLength

end Crypto

/-! ## Encrypted key-value store (`encryptedkvdb.js`)

The module is a function of the injected `crypto` object and the database
options; the embedding is likewise parametric over a `Cipher`.  The
`KEY_VALUE_PAIR` table is a list of rows. -/

namespace Ekvdb

/-- The injected cipher object, as produced by `crypto.js` for a fixed key.
(`generateIvBase64` draws fresh randomness; freshly generated IVs appear as
explicit arguments where the store calls it.) -/
structure Cipher where
  cipherValueToBase64 : String → String → String
  decipherValueFromBase64 : String → String → String

/-- One row of the `KEY_VALUE_PAIR` table: `USER_ID`, `KEY`, `IV`, `VALUE`. -/
structure Row where
  userId : String
  key : String
  iv : String
  value : String
deriving DecidableEq

/-- One entry of the decrypted snapshot built by `getPairs`. -/
structure Entry where
  ivBase64 : String
  cipheredValueBase64 : String
  value : String
deriving DecidableEq

/-- Lookup in the JS object built by `_.reduce` with `{...r, [v.KEY]: ...}`:
for a duplicated key the later assignment wins. -/
def objGet : List (String × Entry) → String → Option Entry
  | [], _ => none
  | p :: rest, k =>
    match objGet rest k with
    | some e => some e
    | none => if p.1 = k then some p.2 else none

/-- The WHERE clause `USER_ID=? and KEY=?` of the UPDATE statement. -/
def rowMatches (userId key : String) (r : Row) : Bool :=
  r.userId == userId && r.key == key

/-- The read `getPairs(userId)`: one SELECT of all the user's rows, each value
decrypted with the IV stored in the same row. -/
def getPairs (c : Cipher) (userId : String) (table : List Row) :
    List (String × Entry) :=
  (table.filter (fun r => r.userId == userId)).map
    (fun r => (r.key, ⟨r.iv, r.value, c.decipherValueFromBase64 r.iv r.value⟩))

/-- Outcome of `setValue`: normal completion, or the thrown
`Affected row count was ...` error. -/
inductive WriteOut where
  | ok
  | writeConflict (affectedRows : Nat)
deriving DecidableEq

/-- Number of rows matched by the UPDATE's WHERE clause; reported as the
statement's affected-row count. -/
def matchedRows (userId key : String) (table : List Row) : Nat :=
  (table.filter (rowMatches userId key)).length

/-- The upsert `setValue(userId, pairs, key, value)`: read the stored IV for `key` out
of the snapshot `pairs`; if it is a non-empty string (JS truthiness of
`storedIvBase64`), issue an UPDATE of the `VALUE` column under that IV and
throw unless exactly one row was affected; otherwise issue an INSERT of one
fresh row under a freshly generated IV (`freshIvBase64` stands for the
`crypto.generateIvBase64()` call; a single-row INSERT that does not error
affects exactly one row).  The returned table is the state after the issued
statement — an UPDATE rewrites every matching row before its affected-row
count is checked. -/
def setValue (c : Cipher) (freshIvBase64 : String) (userId : String)
    (pairs : List (String × Entry)) (key value : String) (table : List Row) :
    WriteOut × List Row :=
  let storedIvBase64 := ((objGet pairs key).map (fun e => e.ivBase64)).getD ""
  if storedIvBase64 = "" then
    (.ok, table ++ [⟨userId, key, freshIvBase64, c.cipherValueToBase64 freshIvBase64 value⟩])
  else
    let affected := matchedRows userId key table
    let table' := table.map (fun r =>
      if rowMatches userId key r then
        { r with value := c.cipherValueToBase64 storedIvBase64 value }
      else r)
    if affected = 1 then (.ok, table') else (.writeConflict affected, table')

end Ekvdb

/-! ## JS string primitives used by the resolver

`String.prototype.trim`, `String.prototype.toLowerCase` (ASCII range — the
scheme tokens compared against are ASCII) and `split(/\s+/)`, embedded over
the character list of the string so that they compute in the kernel.  On a
trimmed string, `split(/\s+/)` yields exactly the maximal runs of
non-whitespace characters, which is what `jsSplitWs` produces. -/

def jsTrim (s : String) : String :=
  ⟨((s.data.dropWhile Char.isWhitespace).reverse.dropWhile Char.isWhitespace).reverse⟩

def lowerChar (c : Char) : Char :=
  if 'A' ≤ c ∧ c ≤ 'Z' then Char.ofNat (c.toNat + 32) else c

def jsToLower (s : String) : String := ⟨s.data.map lowerChar⟩

def jsSplitWsAux : List Char → List Char → List (List Char)
  | [], acc => if acc.isEmpty then [] else [acc.reverse]
  | c :: cs, acc =>
    if c.isWhitespace then
      if acc.isEmpty then jsSplitWsAux cs [] else acc.reverse :: jsSplitWsAux cs []
    else jsSplitWsAux cs (c :: acc)

def jsSplitWs (s : String) : List String := (jsSplitWsAux s.data []).map (fun l => ⟨l⟩)

/-! ## Authentication resolver (`withAuth`, both `server.js` variants) -/

/-- The parsed token-introspection response body; of the provider's claims
only the stable subject identifier `sub` is consumed downstream. -/
structure TokenInfo where
  sub : String
deriving DecidableEq

/-- The structured reason of a resolver error (`req.auth.error`).  The
source attaches further diagnostic fields (`type`, `value`, `header`,
`cause`); the embedding keeps the discriminating `message`. -/
structure AuthErr where
  message : String
deriving DecidableEq

/-- The object `req.auth`: a JS object with exactly one of `error`, `key`, `google`
set. -/
structure Auth where
  error : Option AuthErr := none
  key : Option String := none
  google : Option TokenInfo := none
deriving DecidableEq

/-- Exactly one variant of the `AuthContext` is populated. -/
def exactlyOneAuthKind (a : Auth) : Prop :=
  (a.error ≠ none ∧ a.key = none ∧ a.google = none) ∨
  (a.error = none ∧ a.key ≠ none ∧ a.google = none) ∨
  (a.error = none ∧ a.key = none ∧ a.google ≠ none)

namespace ServerS

/-- The resolver `withAuth` of the module-singleton `server.js` variant, as a pure
function of the `Authorization` header (`none` = header absent), the
configured static key `config.authKey` (`none` = no `.authkey` file), and
the outcome of the bearer-token introspection call. -/
def withAuth (header : Option String) (authKey : Option String)
    (introspectStatus : Nat) (introspectBody : TokenInfo) : Auth :=
  let authHeader := jsTrim (header.getD "")
  if authHeader.length = 0 then
    { error := some ⟨"missing Authorization header"⟩ }
  else
    let parts := jsSplitWs authHeader
    let type := parts.headD ""
    let value : Option String := parts[1]?
    if jsToLower type = "key" then
      if authKey.getD "" = "" then
        { error := some ⟨"key authorization disabled"⟩ }
      else if value ≠ some (authKey.getD "") then
        { error := some ⟨"invalid auth key"⟩ }
      else
        { key := value }
    else if jsToLower type = "bearer" then
      if introspectStatus ≠ 200 then
        { error := some ⟨"invalid bearer token"⟩ }
      else
        { google := some introspectBody }
    else
      { error := some ⟨"invalid auth type"⟩ }

end ServerS

namespace ServerMw

/-- The resolver `withAuth` of the middleware-based `server.js` variant: only the
`bearer` scheme is recognised; every other non-empty scheme token falls to
the `invalid auth type` branch (it has no `key` branch). -/
def withAuth (header : Option String)
    (introspectStatus : Nat) (introspectBody : TokenInfo) : Auth :=
  let authHeader := jsTrim (header.getD "")
  if authHeader.length = 0 then
    { error := some ⟨"missing Authorization header"⟩ }
  else
    let parts := jsSplitWs authHeader
    let type := parts.headD ""
    if jsToLower type = "bearer" then
      if introspectStatus ≠ 200 then
        { error := some ⟨"invalid bearer token"⟩ }
      else
        { google := some introspectBody }
    else
      { error := some ⟨"invalid auth type"⟩ }

end ServerMw

/-! ## The `/shibboleth-token` handlers (both `server.js` variants)

The handlers are embedded as pure functions of the request data and of the
outcomes of the external collaborators: `parsed` is the outcome of parsing
the three-part token's payload (`none` = the parse threw), `keyStatus` the
HTTP status of the public-key fetch, and `sigValid` whether the RS256
signature verifies against the fetched key (`jwt.verify` re-parses the
token, so on an unparseable token it fails regardless of `sigValid`).  Each
handler yields the list of responses it sends, the trace of its
network/store effects, and the resulting table. -/

/-- The JWT claims consumed by the linking protocol. -/
structure Payload where
  eraCommonsUsername : String
  iat : Int
deriving DecidableEq

inductive Event where
  | keyFetch
  | verifyAttempt
  | storeRead
  | storeWrite (key : String) (plaintext : String)
deriving DecidableEq

def isStoreWrite : Event → Bool
  | .storeWrite _ _ => true
  | _ => false

/-- A response sent on the wire.  `linkState` carries the projected
decrypted values; an absent `lastLinkTime`/`linkExpireTime` (`none`) is what
`parseInt(undefined)` renders as `NaN` in the JS response. -/
inductive Resp where
  | authError
  | malformedToken
  | keyFetchFailed
  | verifyFailed
  | storeFault
  | linkState (linkedNihUsername lastLinkTime linkExpireTime : Option String)
deriving DecidableEq

structure ShibOut where
  responses : List Resp
  events : List Event
  table : List Ekvdb.Row
deriving DecidableEq

/-- The post-verification body shared verbatim by both variants: read the
snapshot, upsert `linkedNihUsername`, upsert `linkExpireTime` =
`iat + 60*60*24*30` (both against the same point-in-time snapshot), re-read,
and project `{linkedNihUsername, lastLinkTime, linkExpireTime}`.  A thrown
`setValue` conflict propagates to the top-level error middleware
(`storeFault`). -/
def linkAndProject (c : Ekvdb.Cipher) (sub : String) (p : Payload)
    (fresh1 fresh2 : String) (table : List Ekvdb.Row) :
    List Resp × List Event × List Ekvdb.Row :=
  let pairs := Ekvdb.getPairs c sub table
  let r1 := Ekvdb.setValue c fresh1 sub pairs "linkedNihUsername" p.eraCommonsUsername table
  match r1.1 with
  | .writeConflict _ =>
      ([.storeFault],
       [.storeRead, .storeWrite "linkedNihUsername" p.eraCommonsUsername], r1.2)
  | .ok =>
    let expVal := toString (p.iat + 60 * 60 * 24 * 30)
    let r2 := Ekvdb.setValue c fresh2 sub pairs "linkExpireTime" expVal r1.2
    match r2.1 with
    | .writeConflict _ =>
        ([.storeFault],
         [.storeRead, .storeWrite "linkedNihUsername" p.eraCommonsUsername,
          .storeWrite "linkExpireTime" expVal], r2.2)
    | .ok =>
      let pairs2 := Ekvdb.getPairs c sub r2.2
      ([.linkState ((Ekvdb.objGet pairs2 "linkedNihUsername").map (fun e => e.value))
                   ((Ekvdb.objGet pairs2 "lastLinkTime").map (fun e => e.value))
                   ((Ekvdb.objGet pairs2 "linkExpireTime").map (fun e => e.value))],
       [.storeRead, .storeWrite "linkedNihUsername" p.eraCommonsUsername,
        .storeWrite "linkExpireTime" expVal, .storeRead],
       r2.2)

namespace ServerS

/-- The `app.post('/shibboleth-token')` handler of the module-singleton
variant.  Its parse-failure catch block sends the 400 `failed to parse
Shibboleth token` response but does not `return`, so execution falls through
to the public-key fetch and the verification attempt. -/
def shibbolethToken (c : Ekvdb.Cipher) (google : Option TokenInfo)
    (parsed : Option Payload) (keyStatus : Nat) (sigValid : Bool)
    (fresh1 fresh2 : String) (table : List Ekvdb.Row) : ShibOut :=
  match google with
  | none => ⟨[.authError], [], table⟩
  | some g =>
    let rs0 : List Resp := if parsed.isNone then [.malformedToken] else []
    if keyStatus ≠ 200 then ⟨rs0 ++ [.keyFetchFailed], [.keyFetch], table⟩
    else
      match parsed with
      | none =>
          ⟨rs0 ++ [.verifyFailed], [.keyFetch, .verifyAttempt], table⟩
      | some p =>
        if sigValid then
          let (rs, evs, t') := linkAndProject c g.sub p fresh1 fresh2 table
          ⟨rs0 ++ rs, [.keyFetch, .verifyAttempt] ++ evs, t'⟩
        else ⟨rs0 ++ [.verifyFailed], [.keyFetch, .verifyAttempt], table⟩

end ServerS

namespace ServerMw

/-- The handler `postShibbolethToken(envName)` of the middleware-based variant: a
thrown `parseJwtPayload` failure terminates the handler before the
public-key fetch; a non-200 key fetch terminates before verification; a
verification failure terminates before any store access. -/
def postShibbolethToken (c : Ekvdb.Cipher) (google : Option TokenInfo)
    (parsed : Option Payload) (keyStatus : Nat) (sigValid : Bool)
    (fresh1 fresh2 : String) (table : List Ekvdb.Row) : ShibOut :=
  match google with
  | none => ⟨[.authError], [], table⟩
  | some g =>
    match parsed with
    | none => ⟨[.malformedToken], [], table⟩
    | some p =>
      if keyStatus ≠ 200 then ⟨[.keyFetchFailed], [.keyFetch], table⟩
      else if sigValid then
        let (rs, evs, t') := linkAndProject c g.sub p fresh1 fresh2 table
        ⟨rs, [.keyFetch, .verifyAttempt] ++ evs, t'⟩
      else ⟨[.verifyFailed], [.keyFetch, .verifyAttempt], table⟩

end ServerMw

/-! ## Specification predicates and concrete instances -/

/-- The snapshot-presence (update) branch of the upsert: the issued UPDATE
re-encrypts the new value under the snapshot record's stored IV and rewrites
only the `VALUE` column of the matching rows; completion is normal exactly
when the affected-row count is 1, in which case exactly one row of the table
changed and only in its ciphertext column. -/
def updateBranchSpec (c : Ekvdb.Cipher) (userId key value : String)
    (e : Ekvdb.Entry) (table : List Ekvdb.Row)
    (out : Ekvdb.WriteOut × List Ekvdb.Row) : Prop :=
  out.2 = table.map (fun r =>
      if Ekvdb.rowMatches userId key r then
        { r with value := c.cipherValueToBase64 e.ivBase64 value }
      else r)
  ∧ (out.1 = .ok ↔ Ekvdb.matchedRows userId key table = 1)
  ∧ (out.1 = .writeConflict (Ekvdb.matchedRows userId key table) ↔
      Ekvdb.matchedRows userId key table ≠ 1)
  ∧ (Ekvdb.matchedRows userId key table = 1 →
      ∃ t₁ row t₂, table = t₁ ++ row :: t₂
        ∧ row.userId = userId ∧ row.key = key
        ∧ out.2 = t₁ ++
            ({ row with value := c.cipherValueToBase64 e.ivBase64 value } : Ekvdb.Row) :: t₂
        ∧ (∀ r ∈ t₁, Ekvdb.rowMatches userId key r = false)
        ∧ (∀ r ∈ t₂, Ekvdb.rowMatches userId key r = false))

/-- The snapshot-absence (insert) branch of the upsert: one fresh row is
inserted, carrying the freshly generated IV and the value encrypted under
that same IV; a single-row INSERT affects one row, so completion is
normal. -/
def insertBranchSpec (c : Ekvdb.Cipher) (freshIvBase64 userId key value : String)
    (table : List Ekvdb.Row) (out : Ekvdb.WriteOut × List Ekvdb.Row) : Prop :=
  out.1 = .ok ∧
  out.2 = table ++ [⟨userId, key, freshIvBase64, c.cipherValueToBase64 freshIvBase64 value⟩]

/-- Store invariant: every persisted row's ciphertext was produced under the
IV stored in the same row. -/
def EncInv (c : Ekvdb.Cipher) (table : List Ekvdb.Row) : Prop :=
  ∀ r ∈ table, ∃ p, r.value = c.cipherValueToBase64 r.iv p

/-- The injected cipher round-trips (§4.1 contract of the crypto module). -/
def RoundTrips (c : Ekvdb.Cipher) : Prop :=
  ∀ iv p, c.decipherValueFromBase64 iv (c.cipherValueToBase64 iv p) = p

/-- Well-formedness of the table's IV column: stored IVs are base64 of 16
random bytes, in particular non-empty. -/
def NoEmptyIvs (table : List Ekvdb.Row) : Prop :=
  ∀ r ∈ table, r.iv ≠ ""

/-- A degenerate but round-tripping cipher used to instantiate the
parametric store theorems on concrete inputs. -/
def idCipher : Ekvdb.Cipher := ⟨fun _ v => v, fun _ ct => ct⟩

/-! ## Helper lemmas -/

theorem filter_length_one_split {α : Type} (p : α → Bool) :
    ∀ (l : List α), (l.filter p).length = 1 →
      ∃ l₁ a l₂, l = l₁ ++ a :: l₂ ∧ p a = true ∧
        (∀ x ∈ l₁, p x = false) ∧ (∀ x ∈ l₂, p x = false)
  | [], h => by simp at h
  | a :: l, h => by
    by_cases hpa : p a
    · have htail : l.filter p = [] := by
        rw [List.filter_cons, if_pos hpa] at h
        simp only [List.length_cons] at h
        exact List.length_eq_zero.mp (by omega)
      refine ⟨[], a, l, by simp, hpa, by simp, ?_⟩
      intro x hx
      by_contra hfx
      have hmem : x ∈ l.filter p := List.mem_filter.mpr ⟨hx, by simpa using hfx⟩
      rw [htail] at hmem
      simp at hmem
    · have htail : (l.filter p).length = 1 := by
        simpa [List.filter_cons, hpa] using h
      obtain ⟨l₁, b, l₂, rfl, hb, h₁, h₂⟩ := filter_length_one_split p l htail
      exact ⟨a :: l₁, b, l₂, by simp, hb, by
        intro x hx
        rcases List.mem_cons.mp hx with rfl | hx
        · simpa using hpa
        · exact h₁ x hx, h₂⟩

/-! ## C1: the upsert protocol of `setValue` -/

/-- C1.  For every account, snapshot, key and value: if the key is present in
the snapshot (with the well-formed, non-empty stored IV that `getPairs`
yields for every persisted record), `setValue` re-encrypts the new value
under that record's stored IV and issues an UPDATE that rewrites only the
`VALUE` column, completing normally exactly when the affected-row count is 1
(and then exactly one row changed); if the key is absent it generates a
fresh IV and issues an INSERT of one row.  The thrown affected-row error is
the spec's `StoreWriteConflict`. -/
theorem setValue_upsert (c : Ekvdb.Cipher) (fresh userId key value : String)
    (pairs : List (String × Ekvdb.Entry)) (table : List Ekvdb.Row) :
    (∀ e, Ekvdb.objGet pairs key = some e → e.ivBase64 ≠ "" →
       updateBranchSpec c userId key value e table
         (Ekvdb.setValue c fresh userId pairs key value table))
  ∧ (Ekvdb.objGet pairs key = none →
       insertBranchSpec c fresh userId key value table
         (Ekvdb.setValue c fresh userId pairs key value table)) := by
  constructor
  · intro e he hne
    have hstored : ((Ekvdb.objGet pairs key).map (fun x => x.ivBase64)).getD "" = e.ivBase64 := by
      rw [he]
      simp
    unfold Ekvdb.setValue updateBranchSpec
    rw [hstored, if_neg hne]
    have hmap : ∀ (l : List Ekvdb.Row), (∀ r ∈ l, Ekvdb.rowMatches userId key r = false) →
        l.map (fun r => if Ekvdb.rowMatches userId key r then
          { r with value := c.cipherValueToBase64 e.ivBase64 value } else r) = l := by
      intro l hl
      rw [List.map_congr_left (g := id) ?_, List.map_id]
      intro r hr
      simp [hl r hr]
    by_cases haff : Ekvdb.matchedRows userId key table = 1
    · rw [if_pos haff]
      refine ⟨rfl, by simp [haff], by simp [haff], ?_⟩
      intro _
      obtain ⟨t₁, row, t₂, rfl, hrow, h₁, h₂⟩ :=
        filter_length_one_split (Ekvdb.rowMatches userId key) table haff
      have hmrow : row.userId = userId ∧ row.key = key := by
        simpa [Ekvdb.rowMatches] using hrow
      refine ⟨t₁, row, t₂, rfl, hmrow.1, hmrow.2, ?_, h₁, h₂⟩
      show (t₁ ++ row :: t₂).map _ = _
      rw [List.map_append, List.map_cons, hmap t₁ h₁, hmap t₂ h₂, hrow]
      simp
    · rw [if_neg haff]
      exact ⟨rfl, by simp [haff], by simp [haff], fun h => absurd h haff⟩
  · intro he
    unfold Ekvdb.setValue insertBranchSpec
    simp [he]

/-- Witness for C1: both branches of the theorem applied at concrete
inputs — an update of the single existing row for a present key, and an
insert for an absent key. -/
theorem setValue_upsert_w :
    updateBranchSpec idCipher "u" "k" "new" ⟨"iv1", "old", "old"⟩
      [⟨"u", "k", "iv1", "old"⟩]
      (Ekvdb.setValue idCipher "f" "u" [("k", ⟨"iv1", "old", "old"⟩)] "k" "new"
        [⟨"u", "k", "iv1", "old"⟩])
  ∧ insertBranchSpec idCipher "f" "u" "k" "new" []
      (Ekvdb.setValue idCipher "f" "u" [] "k" "new" []) :=
  ⟨(setValue_upsert idCipher "f" "u" "k" "new" [("k", ⟨"iv1", "old", "old"⟩)]
      [⟨"u", "k", "iv1", "old"⟩]).1 ⟨"iv1", "old", "old"⟩ (by decide) (by decide),
   (setValue_upsert idCipher "f" "u" "k" "new" [] []).2 (by decide)⟩

/-! ## C2: totality of the authentication resolver -/

/-- C2.  Both `withAuth` resolvers are total functions of the request
header and the collaborator outcomes (they are embedded as total Lean
functions, so every branch completes without raising), and for every input —
missing header, unknown scheme, `Key` scheme with correct/incorrect/absent
configured secret, `Bearer` scheme with 200 or non-200 introspection — the
produced `req.auth` object has exactly one populated variant. -/
theorem withAuth_total (header : Option String) (authKey : Option String)
    (introspectStatus : Nat) (introspectBody : TokenInfo) :
    exactlyOneAuthKind (ServerS.withAuth header authKey introspectStatus introspectBody) ∧
    exactlyOneAuthKind (ServerMw.withAuth header introspectStatus introspectBody) := by
  unfold ServerS.withAuth ServerMw.withAuth exactlyOneAuthKind
  constructor <;> (dsimp only; split_ifs <;> simp_all)

/-- Witness for C2: the totality conjunction evaluated at a concrete `Key`
request. -/
theorem withAuth_total_w :
    exactlyOneAuthKind (ServerS.withAuth (some "Key abc") (some "abc") 200 ⟨"sub"⟩) ∧
    exactlyOneAuthKind (ServerMw.withAuth (some "Key abc") 200 ⟨"sub"⟩) :=
  withAuth_total (some "Key abc") (some "abc") 200 ⟨"sub"⟩

/-! ## C3: resolution of the `Key` scheme -/

/-- C3, counterexample.  The claim asserts that for every request whose
`Authorization` scheme token is `key` (case-insensitively) *the* resolver
yields `key-auth-disabled` / `invalid-key` / the `apiKey` variant according
to the configured secret; but the middleware-variant resolver (one of the
claim's two cited resolvers) has no `key` branch at all: on `Key s3cret` it
yields the `invalid auth type` error and no `apiKey` variant, whatever the
introspection outcome. -/
theorem keyScheme_mw_counterexample :
    (ServerMw.withAuth (some "Key s3cret") 200 ⟨"sub"⟩).error = some ⟨"invalid auth type"⟩
  ∧ (ServerMw.withAuth (some "Key s3cret") 200 ⟨"sub"⟩).key = none
  ∧ (ServerMw.withAuth (some "Key s3cret") 200 ⟨"sub"⟩).error ≠ some ⟨"key authorization disabled"⟩
  ∧ (ServerMw.withAuth (some "Key s3cret") 200 ⟨"sub"⟩).error ≠ some ⟨"invalid auth key"⟩ := by
  decide

/-- C3, amended.  For every request whose scheme token equals `key`
case-insensitively: the singleton-variant resolver yields the
`key authorization disabled` error when no static secret is configured (or
the secret file is empty), the `invalid auth key` error when the credential
differs from the configured secret, and the `apiKey` variant when it
matches; the middleware-variant resolver has no `Key` branch and classifies
every such request as the `invalid auth type` error. -/
theorem keyScheme_resolution (h : String) (authKey : Option String)
    (introspectStatus : Nat) (introspectBody : TokenInfo)
    (hk : jsToLower ((jsSplitWs (jsTrim h)).headD "") = "key") :
    (authKey.getD "" = "" →
       (ServerS.withAuth (some h) authKey introspectStatus introspectBody).error
         = some ⟨"key authorization disabled"⟩)
  ∧ (∀ s, authKey = some s → s ≠ "" → (jsSplitWs (jsTrim h))[1]? ≠ some s →
       (ServerS.withAuth (some h) authKey introspectStatus introspectBody).error
         = some ⟨"invalid auth key"⟩)
  ∧ (∀ s, authKey = some s → s ≠ "" → (jsSplitWs (jsTrim h))[1]? = some s →
       (ServerS.withAuth (some h) authKey introspectStatus introspectBody).key = some s)
  ∧ (ServerMw.withAuth (some h) introspectStatus introspectBody).error
       = some ⟨"invalid auth type"⟩ := by
  have hne : ¬ (jsTrim h).length = 0 := by
    intro h0
    have hdata : (jsTrim h).data = [] := List.length_eq_zero.mp h0
    have hempty : jsTrim h = "" := by
      cases hemp : jsTrim h with
      | mk d => rw [hemp] at hdata; simp at hdata; simp [hdata]
    rw [hempty] at hk
    simp [jsSplitWs, jsSplitWsAux, jsToLower] at hk
  have hnb : ¬ jsToLower ((jsSplitWs (jsTrim h)).headD "") = "bearer" := by
    rw [hk]; decide
  refine ⟨?_, ?_, ?_, ?_⟩
  · intro hak
    unfold ServerS.withAuth
    simp only [Option.getD_some, if_neg hne, if_pos hk, if_pos hak]
  · intro s hs hsne hmis
    unfold ServerS.withAuth
    subst hs
    simp only [Option.getD_some, if_neg hne, if_pos hk, if_neg hsne, if_pos hmis]
  · intro s hs hsne hmat
    unfold ServerS.withAuth
    subst hs
    have : ¬ ((jsSplitWs (jsTrim h))[1]? ≠ some s) := by simp [hmat]
    simp only [Option.getD_some, if_neg hne, if_pos hk, if_neg hsne, if_neg this, hmat]
    simp
  · unfold ServerMw.withAuth
    simp only [Option.getD_some, if_neg hne, if_neg hnb]

/-- Witness for C3's amended theorem: the three singleton-variant outcomes
and the middleware-variant outcome, each at a concrete `Key` request. -/
theorem keyScheme_resolution_w :
    (ServerS.withAuth (some "Key abc") (some "") 200 ⟨"sub"⟩).error
        = some ⟨"key authorization disabled"⟩
  ∧ (ServerS.withAuth (some "Key abc") (some "zzz") 200 ⟨"sub"⟩).error
        = some ⟨"invalid auth key"⟩
  ∧ (ServerS.withAuth (some "Key abc") (some "abc") 200 ⟨"sub"⟩).key = some "abc"
  ∧ (ServerMw.withAuth (some "Key abc") 200 ⟨"sub"⟩).error = some ⟨"invalid auth type"⟩ :=
  ⟨(keyScheme_resolution "Key abc" (some "") 200 ⟨"sub"⟩ (by decide)).1 (by decide),
   (keyScheme_resolution "Key abc" (some "zzz") 200 ⟨"sub"⟩ (by decide)).2.1 "zzz" rfl
     (by decide) (by decide),
   (keyScheme_resolution "Key abc" (some "abc") 200 ⟨"sub"⟩ (by decide)).2.2.1 "abc" rfl
     (by decide) (by decide),
   (keyScheme_resolution "Key abc" (some "abc") 200 ⟨"sub"⟩ (by decide)).2.2.2⟩

/-! ## Store-preservation lemmas -/

theorem objGet_append (l₁ l₂ : List (String × Ekvdb.Entry)) (k : String) :
    Ekvdb.objGet (l₁ ++ l₂) k = (Ekvdb.objGet l₂ k).or (Ekvdb.objGet l₁ k) := by
  induction l₁ with
  | nil => simp [Ekvdb.objGet]
  | cons p rest ih =>
    have hL : Ekvdb.objGet ((p :: rest) ++ l₂) k
        = match Ekvdb.objGet (rest ++ l₂) k with
          | some e => some e
          | none => if p.1 = k then some p.2 else none := rfl
    have hR : Ekvdb.objGet (p :: rest) k
        = match Ekvdb.objGet rest k with
          | some e => some e
          | none => if p.1 = k then some p.2 else none := rfl
    rw [hL, hR, ih]
    cases Ekvdb.objGet l₂ k <;> cases Ekvdb.objGet rest k <;> simp [Option.or]

theorem getPairs_cons (c : Ekvdb.Cipher) (uid : String) (r : Ekvdb.Row)
    (t : List Ekvdb.Row) :
    Ekvdb.getPairs c uid (r :: t) =
      if r.userId == uid then
        (r.key, ⟨r.iv, r.value, c.decipherValueFromBase64 r.iv r.value⟩) ::
          Ekvdb.getPairs c uid t
      else Ekvdb.getPairs c uid t := by
  simp only [Ekvdb.getPairs, List.filter_cons]
  split <;> simp

theorem objGet_getPairs_eq_none (c : Ekvdb.Cipher) (uid k : String) :
    ∀ (t : List Ekvdb.Row),
      (Ekvdb.objGet (Ekvdb.getPairs c uid t) k = none ↔
        ∀ r ∈ t, Ekvdb.rowMatches uid k r = false)
  | [] => by simp [Ekvdb.getPairs, Ekvdb.objGet]
  | r :: t => by
    rw [getPairs_cons]
    have ih := objGet_getPairs_eq_none c uid k t
    by_cases hu : r.userId == uid
    · rw [if_pos hu]
      simp only [Ekvdb.objGet]
      constructor
      · intro hnone
        rcases hrest : Ekvdb.objGet (Ekvdb.getPairs c uid t) k with _ | e
        · rw [hrest] at hnone
          intro x hx
          rcases List.mem_cons.mp hx with heq | hx
          · subst heq
            simp only [Ekvdb.rowMatches, hu, Bool.true_and]
            by_cases hkk : x.key = k
            · rw [if_pos hkk] at hnone; exact absurd hnone (by simp)
            · simpa using hkk
          · exact (ih.mp hrest) x hx
        · rw [hrest] at hnone; exact absurd hnone (by simp)
      · intro hall
        have hr := hall r (by simp)
        have hkk : ¬ r.key = k := by
          simp only [Ekvdb.rowMatches, hu, Bool.true_and] at hr
          simpa using hr
        rw [ih.mpr (fun x hx => hall x (by simp [hx]))]
        simp [hkk]
    · rw [if_neg hu]
      rw [ih]
      constructor
      · intro hall x hx
        rcases List.mem_cons.mp hx with heq | hx
        · subst heq
          simp [Ekvdb.rowMatches, hu]
        · exact hall x hx
      · intro hall x hx
        exact hall x (by simp [hx])

theorem objGet_getPairs_append_ne (c : Ekvdb.Cipher) (uid k' : String)
    (t : List Ekvdb.Row) (row : Ekvdb.Row) (hne : row.key ≠ k') :
    Ekvdb.objGet (Ekvdb.getPairs c uid (t ++ [row])) k'
      = Ekvdb.objGet (Ekvdb.getPairs c uid t) k' := by
  have hsplit : Ekvdb.getPairs c uid (t ++ [row])
      = Ekvdb.getPairs c uid t ++ Ekvdb.getPairs c uid [row] := by
    simp [Ekvdb.getPairs, List.filter_append]
  rw [hsplit, objGet_append]
  have hone : Ekvdb.objGet (Ekvdb.getPairs c uid [row]) k' = none := by
    rw [getPairs_cons]
    split <;> simp [Ekvdb.getPairs, Ekvdb.objGet, hne]
  rw [hone]
  rfl

theorem objGet_getPairs_update_ne (c : Ekvdb.Cipher) (uid uid0 k k' newVal : String)
    (hne : k' ≠ k) : ∀ (t : List Ekvdb.Row),
    Ekvdb.objGet (Ekvdb.getPairs c uid (t.map (fun r =>
        if Ekvdb.rowMatches uid0 k r then { r with value := newVal } else r))) k'
      = Ekvdb.objGet (Ekvdb.getPairs c uid t) k'
  | [] => rfl
  | r :: t => by
    have ih := objGet_getPairs_update_ne c uid uid0 k k' newVal hne t
    simp only [List.map_cons]
    rw [getPairs_cons, getPairs_cons]
    have huid : (if Ekvdb.rowMatches uid0 k r then { r with value := newVal } else r).userId
        = r.userId := by split <;> rfl
    have hkey : (if Ekvdb.rowMatches uid0 k r then { r with value := newVal } else r).key
        = r.key := by split <;> rfl
    rw [huid, hkey]
    by_cases hu : r.userId == uid
    · rw [if_pos hu, if_pos hu]
      simp only [Ekvdb.objGet, ih]
      rcases Ekvdb.objGet (Ekvdb.getPairs c uid t) k' with _ | e
      · by_cases hkk : r.key = k'
        · have hmf : Ekvdb.rowMatches uid0 k r = false := by
            simp only [Ekvdb.rowMatches]
            have : ¬ r.key = k := by rw [hkk]; exact hne
            simp [this]
          rw [hmf]
          simp
        · simp [hkk]
      · rfl
    · rw [if_neg hu, if_neg hu]
      exact ih

theorem objGet_getPairs_setValue_ne (c : Ekvdb.Cipher) (f uid0 uid k v k' : String)
    (pairs : List (String × Ekvdb.Entry)) (t : List Ekvdb.Row) (hne : k' ≠ k) :
    Ekvdb.objGet (Ekvdb.getPairs c uid (Ekvdb.setValue c f uid0 pairs k v t).2) k'
      = Ekvdb.objGet (Ekvdb.getPairs c uid t) k' := by
  unfold Ekvdb.setValue
  by_cases hstored : ((Ekvdb.objGet pairs k).map (fun e => e.ivBase64)).getD "" = ""
  · rw [if_pos hstored]
    exact objGet_getPairs_append_ne c uid k' t
      ⟨uid0, k, f, c.cipherValueToBase64 f v⟩ (Ne.symm hne)
  · rw [if_neg hstored]
    by_cases haff : Ekvdb.matchedRows uid0 k t = 1
    · rw [if_pos haff]
      exact objGet_getPairs_update_ne c uid uid0 k k' _ hne t
    · rw [if_neg haff]
      exact objGet_getPairs_update_ne c uid uid0 k k' _ hne t

theorem linkAndProject_facts (c : Ekvdb.Cipher) (sub : String) (p : Payload)
    (f1 f2 : String) (t : List Ekvdb.Row) :
    (∀ k v, Event.storeWrite k v ∈ (linkAndProject c sub p f1 f2 t).2.1 →
        k = "linkedNihUsername" ∨ k = "linkExpireTime")
  ∧ Ekvdb.objGet (Ekvdb.getPairs c sub (linkAndProject c sub p f1 f2 t).2.2) "lastLinkTime"
      = Ekvdb.objGet (Ekvdb.getPairs c sub t) "lastLinkTime"
  ∧ (∀ ln ll le, Resp.linkState ln ll le ∈ (linkAndProject c sub p f1 f2 t).1 →
        ll = (Ekvdb.objGet (Ekvdb.getPairs c sub (linkAndProject c sub p f1 f2 t).2.2)
               "lastLinkTime").map (fun e => e.value))
  ∧ (∀ v, Event.storeWrite "linkExpireTime" v ∈ (linkAndProject c sub p f1 f2 t).2.1 →
        v = toString (p.iat + 2592000))
  ∧ (∀ ln ll le, Resp.linkState ln ll le ∈ (linkAndProject c sub p f1 f2 t).1 →
        Event.storeWrite "linkExpireTime" (toString (p.iat + 2592000))
          ∈ (linkAndProject c sub p f1 f2 t).2.1) := by
  have hexp : (60 * 60 * 24 * 30 : Int) = 2592000 := by norm_num
  have hp1 := objGet_getPairs_setValue_ne c f1 sub sub "linkedNihUsername"
    p.eraCommonsUsername "lastLinkTime" (Ekvdb.getPairs c sub t) t (by decide)
  have hp2 := objGet_getPairs_setValue_ne c f2 sub sub "linkExpireTime"
    (toString (p.iat + 60 * 60 * 24 * 30)) "lastLinkTime" (Ekvdb.getPairs c sub t)
    ((Ekvdb.setValue c f1 sub (Ekvdb.getPairs c sub t) "linkedNihUsername"
      p.eraCommonsUsername t).2) (by decide)
  simp only [linkAndProject]
  split
  · -- the first setValue threw
    dsimp only
    refine ⟨?_, hp1, ?_, ?_, ?_⟩
    · intro k v hv
      simp at hv
      exact Or.inl hv.1
    · intro ln ll le hmem
      simp at hmem
    · intro v hv
      simp at hv
    · intro ln ll le hmem
      simp at hmem
  · -- the first setValue completed
    split
    · -- the second setValue threw
      dsimp only
      refine ⟨?_, by rw [hp2, hp1], ?_, ?_, ?_⟩
      · intro k v hv
        simp at hv
        rcases hv with h | h
        · exact Or.inl h.1
        · exact Or.inr h.1
      · intro ln ll le hmem
        simp at hmem
      · intro v hv
        simp at hv
        exact hv
      · intro ln ll le hmem
        simp at hmem
    · -- both writes completed
      dsimp only
      refine ⟨?_, by rw [hp2, hp1], ?_, ?_, ?_⟩
      · intro k v hv
        simp at hv
        rcases hv with h | h
        · exact Or.inl h.1
        · exact Or.inr h.1
      · intro ln ll le hmem
        simp at hmem
        exact hmem.2.1
      · intro v hv
        simp at hv
        exact hv
      · intro ln ll le _
        simp

/-! ## C4: parse failure in the singleton variant's linking handler -/

/-- C4.  The spec (and the middleware variant, which conforms) requires a
parse failure to terminate the protocol with the `MalformedAssertion` client
error before any public-key fetch or verification; the singleton variant's
catch block lacks a `return`, so on an unparseable body it sends the 400
`failed to parse Shibboleth token` response and then still fetches the
public key and attempts verification (whose failure triggers a second
response on the already-finished reply).  No store access happens, since the
verification of the unparseable token necessarily fails.  Concretely, with
an authenticated subject, an unparseable body and a 200 key fetch: -/
theorem malformed_token_still_fetches_key :
    (ServerS.shibbolethToken idCipher (some ⟨"abc123"⟩) none 200 true "f1" "f2"
        []).responses = [.malformedToken, .verifyFailed]
  ∧ Event.keyFetch ∈ (ServerS.shibbolethToken idCipher (some ⟨"abc123"⟩) none 200 true
        "f1" "f2" []).events
  ∧ Event.verifyAttempt ∈ (ServerS.shibbolethToken idCipher (some ⟨"abc123"⟩) none 200 true
        "f1" "f2" []).events
  ∧ (ServerMw.postShibbolethToken idCipher (some ⟨"abc123"⟩) none 200 true "f1" "f2"
        []).responses = [.malformedToken]
  ∧ (ServerMw.postShibbolethToken idCipher (some ⟨"abc123"⟩) none 200 true "f1" "f2"
        []).events = [] := by
  decide

/-! ## C5: verification failure causes no store mutation -/

/-- C5.  In both variants, whenever the signature verification of the
assertion fails (in the singleton variant this includes an unparseable
token, which `jwt.verify` necessarily rejects), the handler responds with
the verification failure and performs no store access at all: no store
write event occurs and the table is unchanged. -/
theorem verify_failure_no_store_mutation (c : Ekvdb.Cipher) (g : TokenInfo)
    (parsed : Option Payload) (sigValid : Bool) (f1 f2 : String) (t : List Ekvdb.Row)
    (hbad : sigValid = false ∨ parsed = none) :
    (Resp.verifyFailed ∈
        (ServerS.shibbolethToken c (some g) parsed 200 sigValid f1 f2 t).responses
      ∧ (∀ ev ∈ (ServerS.shibbolethToken c (some g) parsed 200 sigValid f1 f2 t).events,
          isStoreWrite ev = false)
      ∧ (ServerS.shibbolethToken c (some g) parsed 200 sigValid f1 f2 t).table = t)
  ∧ (∀ p, parsed = some p → sigValid = false →
      (ServerMw.postShibbolethToken c (some g) parsed 200 sigValid f1 f2 t).responses
          = [.verifyFailed]
      ∧ (∀ ev ∈ (ServerMw.postShibbolethToken c (some g) parsed 200 sigValid f1 f2 t).events,
          isStoreWrite ev = false)
      ∧ (ServerMw.postShibbolethToken c (some g) parsed 200 sigValid f1 f2 t).table = t) := by
  constructor
  · rcases parsed with _ | p
    · simp [ServerS.shibbolethToken, isStoreWrite]
    · rcases hbad with hb | hb
      · subst hb
        simp [ServerS.shibbolethToken, isStoreWrite]
      · exact absurd hb (by simp)
  · intro p hp hs
    subst hp
    subst hs
    simp [ServerMw.postShibbolethToken, isStoreWrite]

/-- Witness for C5: a concrete request with a parseable body and an invalid
signature, in both variants. -/
theorem verify_failure_no_store_mutation_w :
    (Resp.verifyFailed ∈
        (ServerS.shibbolethToken idCipher (some ⟨"s"⟩) (some ⟨"jdoe", 5⟩) 200 false
          "f1" "f2" []).responses
      ∧ (∀ ev ∈ (ServerS.shibbolethToken idCipher (some ⟨"s"⟩) (some ⟨"jdoe", 5⟩) 200 false
          "f1" "f2" []).events, isStoreWrite ev = false)
      ∧ (ServerS.shibbolethToken idCipher (some ⟨"s"⟩) (some ⟨"jdoe", 5⟩) 200 false
          "f1" "f2" []).table = [])
  ∧ ((ServerMw.postShibbolethToken idCipher (some ⟨"s"⟩) (some ⟨"jdoe", 5⟩) 200 false
          "f1" "f2" []).responses = [.verifyFailed]
      ∧ (∀ ev ∈ (ServerMw.postShibbolethToken idCipher (some ⟨"s"⟩) (some ⟨"jdoe", 5⟩) 200 false
          "f1" "f2" []).events, isStoreWrite ev = false)
      ∧ (ServerMw.postShibbolethToken idCipher (some ⟨"s"⟩) (some ⟨"jdoe", 5⟩) 200 false
          "f1" "f2" []).table = []) :=
  ⟨(verify_failure_no_store_mutation idCipher ⟨"s"⟩ (some ⟨"jdoe", 5⟩) false "f1" "f2" []
      (Or.inl rfl)).1,
   (verify_failure_no_store_mutation idCipher ⟨"s"⟩ (some ⟨"jdoe", 5⟩) false "f1" "f2" []
      (Or.inl rfl)).2 ⟨"jdoe", 5⟩ rfl rfl⟩

/-! ## C6: the linking-expiry arithmetic -/

/-- C6.  In both variants, every `linkExpireTime` value the handler stores
equals the claims' issued-at time plus the fixed 30-day window of 2592000
seconds (the source's `60 * 60 * 24 * 30`), and on every run that reaches
the projected `linkState` response such a write was issued. -/
theorem link_expire_time_value (c : Ekvdb.Cipher) (g : TokenInfo) (p : Payload)
    (keyStatus : Nat) (sigValid : Bool) (f1 f2 : String) (t : List Ekvdb.Row) :
    (∀ v, Event.storeWrite "linkExpireTime" v ∈
        (ServerS.shibbolethToken c (some g) (some p) keyStatus sigValid f1 f2 t).events →
        v = toString (p.iat + 2592000))
  ∧ (∀ ln ll le, Resp.linkState ln ll le ∈
        (ServerS.shibbolethToken c (some g) (some p) keyStatus sigValid f1 f2 t).responses →
        Event.storeWrite "linkExpireTime" (toString (p.iat + 2592000)) ∈
          (ServerS.shibbolethToken c (some g) (some p) keyStatus sigValid f1 f2 t).events)
  ∧ (∀ v, Event.storeWrite "linkExpireTime" v ∈
        (ServerMw.postShibbolethToken c (some g) (some p) keyStatus sigValid f1 f2 t).events →
        v = toString (p.iat + 2592000))
  ∧ (∀ ln ll le, Resp.linkState ln ll le ∈
        (ServerMw.postShibbolethToken c (some g) (some p) keyStatus sigValid f1 f2 t).responses →
        Event.storeWrite "linkExpireTime" (toString (p.iat + 2592000)) ∈
          (ServerMw.postShibbolethToken c (some g) (some p) keyStatus sigValid f1 f2 t).events) := by
  obtain ⟨-, -, -, h4, h5⟩ := linkAndProject_facts c g.sub p f1 f2 t
  by_cases hks : keyStatus ≠ 200
  · simp [ServerS.shibbolethToken, ServerMw.postShibbolethToken, hks]
  · cases sigValid with
    | false => simp [ServerS.shibbolethToken, ServerMw.postShibbolethToken, hks]
    | true =>
      simp only [ServerS.shibbolethToken, ServerMw.postShibbolethToken, hks,
        if_false, Option.isNone_some, Bool.false_eq_true, ite_false, if_true,
        List.nil_append]
      refine ⟨?_, ?_, ?_, ?_⟩
      · intro v hv
        rcases List.mem_append.mp hv with h | h
        · simp at h
        · exact h4 v h
      · intro ln ll le hmem
        exact List.mem_append_right _ (h5 ln ll le hmem)
      · intro v hv
        rcases List.mem_append.mp hv with h | h
        · simp at h
        · exact h4 v h
      · intro ln ll le hmem
        exact List.mem_append_right _ (h5 ln ll le hmem)

/-- Witness for C6: a successful end-to-end run on an empty table with
`iat = 1700000000` stores `linkExpireTime = "1702592000"`. -/
theorem link_expire_time_value_w :
    Event.storeWrite "linkExpireTime" "1702592000" ∈
      (ServerS.shibbolethToken idCipher (some ⟨"abc123"⟩) (some ⟨"jdoe", 1700000000⟩)
        200 true "f1" "f2" []).events := by
  have h := (link_expire_time_value idCipher ⟨"abc123"⟩ ⟨"jdoe", 1700000000⟩
      200 true "f1" "f2" []).2.1 (some "jdoe") none (some "1702592000") (by decide)
  have heq : toString ((1700000000 : Int) + 2592000) = "1702592000" := by decide
  rw [heq] at h
  exact h

/-! ## C9: frame property of the linking protocol -/

/-- C9.  Frame property of the linking handlers (both variants): the only
attribute keys ever written in one request are `linkedNihUsername` and
`linkExpireTime`; in particular `lastLinkTime` is never written, the
account's `lastLinkTime` snapshot entry after the request equals the one
before it, and for an account with no pre-existing `lastLinkTime` record
the `lastLinkTime` field projected into the `linkState` response is absent
(`none` here; `parseInt(undefined) = NaN` in the JS response). -/
theorem linking_frame (c : Ekvdb.Cipher) (g : TokenInfo) (parsed : Option Payload)
    (keyStatus : Nat) (sigValid : Bool) (f1 f2 : String) (t : List Ekvdb.Row) :
    (∀ k v, Event.storeWrite k v ∈
        (ServerS.shibbolethToken c (some g) parsed keyStatus sigValid f1 f2 t).events →
        k = "linkedNihUsername" ∨ k = "linkExpireTime")
  ∧ (∀ k v, Event.storeWrite k v ∈
        (ServerMw.postShibbolethToken c (some g) parsed keyStatus sigValid f1 f2 t).events →
        k = "linkedNihUsername" ∨ k = "linkExpireTime")
  ∧ Ekvdb.objGet (Ekvdb.getPairs c g.sub
        (ServerS.shibbolethToken c (some g) parsed keyStatus sigValid f1 f2 t).table)
        "lastLinkTime"
      = Ekvdb.objGet (Ekvdb.getPairs c g.sub t) "lastLinkTime"
  ∧ Ekvdb.objGet (Ekvdb.getPairs c g.sub
        (ServerMw.postShibbolethToken c (some g) parsed keyStatus sigValid f1 f2 t).table)
        "lastLinkTime"
      = Ekvdb.objGet (Ekvdb.getPairs c g.sub t) "lastLinkTime"
  ∧ ((∀ r ∈ t, Ekvdb.rowMatches g.sub "lastLinkTime" r = false) →
      (∀ ln ll le, Resp.linkState ln ll le ∈
          (ServerS.shibbolethToken c (some g) parsed keyStatus sigValid f1 f2 t).responses →
          ll = none)
      ∧ (∀ ln ll le, Resp.linkState ln ll le ∈
          (ServerMw.postShibbolethToken c (some g) parsed keyStatus sigValid f1 f2 t).responses →
          ll = none)) := by
  rcases parsed with _ | p
  · by_cases hks : keyStatus ≠ 200 <;>
      simp [ServerS.shibbolethToken, ServerMw.postShibbolethToken, hks]
  · obtain ⟨hw, hpres, hresp, -, -⟩ := linkAndProject_facts c g.sub p f1 f2 t
    by_cases hks : keyStatus ≠ 200
    · simp [ServerS.shibbolethToken, ServerMw.postShibbolethToken, hks]
    · cases sigValid with
      | false => simp [ServerS.shibbolethToken, ServerMw.postShibbolethToken, hks]
      | true =>
        simp only [ServerS.shibbolethToken, ServerMw.postShibbolethToken, hks,
          if_false, Option.isNone_some, Bool.false_eq_true, ite_false, if_true,
          List.nil_append]
        refine ⟨?_, ?_, hpres, hpres, ?_⟩
        · intro k v hv
          rcases List.mem_append.mp hv with h | h
          · simp at h
          · exact hw k v h
        · intro k v hv
          rcases List.mem_append.mp hv with h | h
          · simp at h
          · exact hw k v h
        · intro hnone
          have habsent : Ekvdb.objGet (Ekvdb.getPairs c g.sub t) "lastLinkTime" = none :=
            (objGet_getPairs_eq_none c g.sub "lastLinkTime" t).mpr hnone
          constructor
          · intro ln ll le hmem
            have hll := hresp ln ll le hmem
            rw [hpres, habsent] at hll
            simpa using hll
          · intro ln ll le hmem
            have hll := hresp ln ll le hmem
            rw [hpres, habsent] at hll
            simpa using hll

/-- Witness for C9's conditional clause: a successful concrete run on an
empty table (no pre-existing `lastLinkTime`) projects `lastLinkTime = none`
into the response, and the preservation clauses at the same input. -/
theorem linking_frame_w :
    (∀ ln ll le, Resp.linkState ln ll le ∈
        (ServerS.shibbolethToken idCipher (some ⟨"abc123"⟩) (some ⟨"jdoe", 1700000000⟩)
          200 true "f1" "f2" []).responses → ll = none)
  ∧ Ekvdb.objGet (Ekvdb.getPairs idCipher "abc123"
        (ServerS.shibbolethToken idCipher (some ⟨"abc123"⟩) (some ⟨"jdoe", 1700000000⟩)
          200 true "f1" "f2" []).table) "lastLinkTime"
      = Ekvdb.objGet (Ekvdb.getPairs idCipher "abc123" []) "lastLinkTime" :=
  ⟨((linking_frame idCipher ⟨"abc123"⟩ (some ⟨"jdoe", 1700000000⟩) 200 true "f1" "f2"
      []).2.2.2.2 (by simp)).1,
   (linking_frame idCipher ⟨"abc123"⟩ (some ⟨"jdoe", 1700000000⟩) 200 true "f1" "f2"
      []).2.2.1⟩

theorem objGet_cons (p : String × Ekvdb.Entry) (rest : List (String × Ekvdb.Entry))
    (k : String) :
    Ekvdb.objGet (p :: rest) k =
      match Ekvdb.objGet rest k with
      | some e => some e
      | none => if p.1 = k then some p.2 else none := rfl

theorem objGet_getPairs_eq_some (c : Ekvdb.Cipher) (uid k : String) :
    ∀ (t : List Ekvdb.Row) (e : Ekvdb.Entry),
      Ekvdb.objGet (Ekvdb.getPairs c uid t) k = some e →
      ∃ r ∈ t, r.userId = uid ∧ r.key = k ∧
        e = ⟨r.iv, r.value, c.decipherValueFromBase64 r.iv r.value⟩
  | [], e => by simp [Ekvdb.getPairs, Ekvdb.objGet]
  | r :: t, e => by
    rw [getPairs_cons]
    by_cases hu : r.userId == uid
    · rw [if_pos hu, objGet_cons]
      rcases hrest : Ekvdb.objGet (Ekvdb.getPairs c uid t) k with _ | e'
      · intro hsome
        by_cases hkk : r.key = k
        · simp only [hkk, if_pos] at hsome
          refine ⟨r, by simp, by simpa using hu, hkk, ?_⟩
          simpa using (Option.some.inj hsome).symm
        · simp [hkk] at hsome
      · intro hsome
        have he : e' = e := by simpa using hsome
        subst he
        obtain ⟨rr, hrr, h1, h2, h3⟩ := objGet_getPairs_eq_some c uid k t e' hrest
        exact ⟨rr, by simp [hrr], h1, h2, h3⟩
    · rw [if_neg hu]
      intro hsome
      obtain ⟨rr, hrr, h1, h2, h3⟩ := objGet_getPairs_eq_some c uid k t e hsome
      exact ⟨rr, by simp [hrr], h1, h2, h3⟩

/-! ## C7: the IV/ciphertext pairing invariant -/

/-- C7.  IV and ciphertext travel together: on a table in which every row's
ciphertext was produced under the IV stored in that same row (with the
well-formed non-empty IVs that the store itself writes), any successful
`setValue` against the table's own `getPairs` snapshot preserves that
invariant — an insert stores the fresh IV it just encrypted under, and an
update re-encrypts under the matched row's own stored IV — and afterwards
decrypting the written record's ciphertext with its own stored IV recovers
the written plaintext. -/
theorem setValue_preserves_encInv (c : Ekvdb.Cipher) (hc : RoundTrips c)
    (fresh userId key value : String) (t t' : List Ekvdb.Row)
    (hinv : EncInv c t) (hiv : NoEmptyIvs t) (hfresh : fresh ≠ "")
    (hok : Ekvdb.setValue c fresh userId (Ekvdb.getPairs c userId t) key value t
      = (.ok, t')) :
    EncInv c t' ∧ NoEmptyIvs t' ∧
    ∀ r ∈ t', Ekvdb.rowMatches userId key r = true →
      c.decipherValueFromBase64 r.iv r.value = value := by
  unfold Ekvdb.setValue at hok
  by_cases hstored :
      ((Ekvdb.objGet (Ekvdb.getPairs c userId t) key).map (fun e => e.ivBase64)).getD "" = ""
  · -- insert branch
    rw [if_pos hstored] at hok
    have ht' : t ++ [(⟨userId, key, fresh, c.cipherValueToBase64 fresh value⟩ : Ekvdb.Row)]
        = t' := congrArg Prod.snd hok
    subst ht'
    have hnomatch : ∀ r ∈ t, Ekvdb.rowMatches userId key r = false := by
      rcases hobj : Ekvdb.objGet (Ekvdb.getPairs c userId t) key with _ | e
      · exact (objGet_getPairs_eq_none c userId key t).mp hobj
      · obtain ⟨rr, hrr, h1, h2, h3⟩ := objGet_getPairs_eq_some c userId key t e hobj
        have hivr : e.ivBase64 = rr.iv := by rw [h3]
        rw [hobj] at hstored
        simp only [Option.map_some', Option.getD_some] at hstored
        exact absurd (hivr ▸ hstored) (hiv rr hrr)
    refine ⟨?_, ?_, ?_⟩
    · intro r hr
      rcases List.mem_append.mp hr with h | h
      · exact hinv r h
      · have : r = ⟨userId, key, fresh, c.cipherValueToBase64 fresh value⟩ := by simpa using h
        subst this
        exact ⟨value, rfl⟩
    · intro r hr
      rcases List.mem_append.mp hr with h | h
      · exact hiv r h
      · have : r = ⟨userId, key, fresh, c.cipherValueToBase64 fresh value⟩ := by simpa using h
        subst this
        exact hfresh
    · intro r hr hm
      rcases List.mem_append.mp hr with h | h
      · rw [hnomatch r h] at hm; exact absurd hm (by simp)
      · have : r = ⟨userId, key, fresh, c.cipherValueToBase64 fresh value⟩ := by simpa using h
        subst this
        exact hc fresh value
  · -- update branch
    rw [if_neg hstored] at hok
    rcases hobj : Ekvdb.objGet (Ekvdb.getPairs c userId t) key with _ | e
    · rw [hobj] at hstored
      simp at hstored
    · have hse : ((Ekvdb.objGet (Ekvdb.getPairs c userId t) key).map
          (fun e => e.ivBase64)).getD "" = e.ivBase64 := by
        rw [hobj]
        simp
      rw [hse] at hok
      by_cases haff : Ekvdb.matchedRows userId key t = 1
      · rw [if_pos haff] at hok
        have ht' : t.map (fun r => if Ekvdb.rowMatches userId key r then
            { r with value := c.cipherValueToBase64 e.ivBase64 value } else r) = t' :=
          congrArg Prod.snd hok
        subst ht'
        obtain ⟨t₁, row, t₂, hdec, hrow, h₁, h₂⟩ :=
          filter_length_one_split (Ekvdb.rowMatches userId key) t haff
        have huniq : ∀ r ∈ t, Ekvdb.rowMatches userId key r = true → r = row := by
          intro r hr hm
          rw [hdec] at hr
          rcases List.mem_append.mp hr with h | h
          · rw [h₁ r h] at hm; exact absurd hm (by simp)
          · rcases List.mem_cons.mp h with heq | h
            · exact heq
            · rw [h₂ r h] at hm; exact absurd hm (by simp)
        obtain ⟨rr, hrr, hu1, hu2, hu3⟩ := objGet_getPairs_eq_some c userId key t e hobj
        have hrrm : Ekvdb.rowMatches userId key rr = true := by
          simp [Ekvdb.rowMatches, hu1, hu2]
        have hre : rr = row := huniq rr hrr hrrm
        have hivrow : e.ivBase64 = row.iv := by rw [hu3, hre]
        have hmf : ∀ r : Ekvdb.Row,
            Ekvdb.rowMatches userId key (if Ekvdb.rowMatches userId key r then
              { r with value := c.cipherValueToBase64 e.ivBase64 value } else r)
            = Ekvdb.rowMatches userId key r := by
          intro r
          by_cases hm : Ekvdb.rowMatches userId key r = true
          · rw [if_pos hm]
            simp [Ekvdb.rowMatches]
          · rw [if_neg hm]
        refine ⟨?_, ?_, ?_⟩
        · intro r' hr'
          obtain ⟨r, hr, rfl⟩ := List.mem_map.mp hr'
          by_cases hm : Ekvdb.rowMatches userId key r
          · rw [if_pos hm]
            have : r = row := huniq r hr hm
            subst this
            exact ⟨value, by rw [hivrow]⟩
          · rw [if_neg hm]
            exact hinv r hr
        · intro r' hr'
          obtain ⟨r, hr, rfl⟩ := List.mem_map.mp hr'
          by_cases hm : Ekvdb.rowMatches userId key r
          · rw [if_pos hm]
            exact hiv r hr
          · rw [if_neg hm]
            exact hiv r hr
        · intro r' hr' hm'
          obtain ⟨r, hr, rfl⟩ := List.mem_map.mp hr'
          rw [hmf r] at hm'
          have : r = row := huniq r hr hm'
          subst this
          rw [if_pos hm']
          show c.decipherValueFromBase64 r.iv (c.cipherValueToBase64 e.ivBase64 value)
            = value
          rw [hivrow]
          exact hc r.iv value
      · rw [if_neg haff] at hok
        exact absurd (congrArg Prod.fst hok) (by simp)

/-- Witness for C7: inserting into an empty table with the identity cipher
establishes the invariant and the recovery property. -/
theorem setValue_preserves_encInv_w :
    EncInv idCipher [⟨"u", "k", "f", "v"⟩] ∧ NoEmptyIvs [⟨"u", "k", "f", "v"⟩] ∧
    ∀ r ∈ [(⟨"u", "k", "f", "v"⟩ : Ekvdb.Row)], Ekvdb.rowMatches "u" "k" r = true →
      idCipher.decipherValueFromBase64 r.iv r.value = "v" :=
  setValue_preserves_encInv idCipher (fun _ _ => rfl) "f" "u" "k" "v" []
    [⟨"u", "k", "f", "v"⟩] (by simp [EncInv]) (by simp [NoEmptyIvs]) (by decide) (by decide)

/-! ## Crypto-module lemmas -/

theorem b64_decode_encode : ∀ (l : List Nat), (∀ x ∈ l, x < 256) →
    Crypto.b64Decode (Crypto.b64Encode l) = l
  | [], _ => rfl
  | [a], h => by
    have ha : a < 256 := h a (by simp)
    simp only [Crypto.b64Encode, Crypto.b64Decode, List.cons.injEq, and_true]
    omega
  | [a, b], h => by
    have ha : a < 256 := h a (by simp)
    have hb : b < 256 := h b (by simp)
    simp only [Crypto.b64Encode, Crypto.b64Decode, List.cons.injEq, and_true]
    omega
  | a :: b :: c :: rest, h => by
    have ha : a < 256 := h a (by simp)
    have hb : b < 256 := h b (by simp)
    have hc : c < 256 := h c (by simp)
    have ih := b64_decode_encode rest (fun x hx => h x (by simp [hx]))
    simp only [Crypto.b64Encode, Crypto.b64Decode, ih, List.cons.injEq, and_true]
    omega

theorem pad16_length_mod (l : List Nat) : (Crypto.pad16 l).length % 16 = 0 := by
  simp only [Crypto.pad16, List.length_append, List.length_replicate]
  omega

theorem pad16_bytes (l : List Nat) (h : ∀ x ∈ l, x < 256) :
    ∀ x ∈ Crypto.pad16 l, x < 256 := by
  intro x hx
  rcases List.mem_append.mp hx with hx | hx
  · exact h x hx
  · have := List.eq_of_mem_replicate hx
    subst this
    omega

theorem unpad16_pad16 (l : List Nat) : Crypto.unpad16 (Crypto.pad16 l) = some l := by
  have hk1 : 1 ≤ 16 - l.length % 16 := by omega
  have hk16 : 16 - l.length % 16 ≤ 16 := by omega
  have hlast : (Crypto.pad16 l).getLast? = some (16 - l.length % 16) := by
    unfold Crypto.pad16
    rw [List.getLast?_append]
    simp [List.getLast?_replicate]
    omega
  have hlen : (Crypto.pad16 l).length = l.length + (16 - l.length % 16) := by
    simp [Crypto.pad16]
  unfold Crypto.unpad16
  rw [hlast]
  dsimp only
  have hsub : (Crypto.pad16 l).length - (16 - l.length % 16) = l.length := by
    rw [hlen]; omega
  have hdrop : (Crypto.pad16 l).drop l.length
      = List.replicate (16 - l.length % 16) (16 - l.length % 16) := by
    unfold Crypto.pad16
    exact List.drop_left l _
  have hall : ((Crypto.pad16 l).drop ((Crypto.pad16 l).length - (16 - l.length % 16))).all
      (fun x => x == 16 - l.length % 16) = true := by
    rw [hsub, hdrop]
    simp [List.all_eq_true, List.mem_replicate]
  rw [if_pos ⟨hk1, hk16, by rw [hlen]; omega, hall⟩, hsub]
  unfold Crypto.pad16
  rw [List.take_left l _]

theorem toBlocks_flatten : ∀ (l : List Nat), (Crypto.toBlocks l).flatten = l
  | [] => by simp [Crypto.toBlocks]
  | a :: rest => by
    simp only [Crypto.toBlocks, List.flatten_cons]
    rw [toBlocks_flatten ((a :: rest).drop 16)]
    exact List.take_append_drop 16 (a :: rest)
termination_by l => l.length
decreasing_by simp [List.length_drop]; omega

theorem toBlocks_length : ∀ (l : List Nat), l.length % 16 = 0 →
    ∀ b ∈ Crypto.toBlocks l, b.length = 16
  | [], _ => by simp [Crypto.toBlocks]
  | a :: rest, h => by
    simp only [Crypto.toBlocks]
    intro b hb
    rcases List.mem_cons.mp hb with heq | hb
    · subst heq
      simp only [List.length_take, List.length_cons]
      have hlen : (a :: rest).length % 16 = 0 := h
      simp only [List.length_cons] at hlen
      omega
    · refine toBlocks_length ((a :: rest).drop 16) ?_ b hb
      simp only [List.length_drop, List.length_cons]
      have hlen : (a :: rest).length % 16 = 0 := h
      simp only [List.length_cons] at hlen
      omega
termination_by l => l.length
decreasing_by simp [List.length_drop]; omega

theorem toBlocks_bytes : ∀ (l : List Nat), (∀ x ∈ l, x < 256) →
    ∀ b ∈ Crypto.toBlocks l, ∀ x ∈ b, x < 256
  | [], _ => by simp [Crypto.toBlocks]
  | a :: rest, h => by
    simp only [Crypto.toBlocks]
    intro b hb
    rcases List.mem_cons.mp hb with heq | hb
    · subst heq
      intro x hx
      exact h x (List.take_subset 16 _ hx)
    · exact toBlocks_bytes ((a :: rest).drop 16)
        (fun x hx => h x (List.drop_subset 16 _ hx)) b hb
termination_by l => l.length
decreasing_by simp [List.length_drop]; omega

theorem toBlocks_of_flatten : ∀ (cs : List (List Nat)), (∀ b ∈ cs, b.length = 16) →
    Crypto.toBlocks cs.flatten = cs
  | [], _ => by simp [Crypto.toBlocks]
  | c :: cs, h => by
    have hc : c.length = 16 := h c (by simp)
    have ih := toBlocks_of_flatten cs (fun b hb => h b (by simp [hb]))
    rcases c with _ | ⟨x, c'⟩
    · simp at hc
    · show Crypto.toBlocks ((x :: c') ++ cs.flatten) = (x :: c') :: cs
      have htake : ((x :: c') ++ cs.flatten).take 16 = x :: c' := by
        rw [← hc]
        exact List.take_left (x :: c') cs.flatten
      have hdrop : ((x :: c') ++ cs.flatten).drop 16 = cs.flatten := by
        rw [← hc]
        exact List.drop_left (x :: c') cs.flatten
      simp only [List.cons_append, Crypto.toBlocks]
      rw [show (x :: (c' ++ cs.flatten)) = (x :: c') ++ cs.flatten from rfl, htake, hdrop, ih]

theorem flatten_blocks_length : ∀ (cs : List (List Nat)), (∀ b ∈ cs, b.length = 16) →
    cs.flatten.length % 16 = 0
  | [], _ => rfl
  | c :: cs, h => by
    have hc := h c (by simp)
    have ih := flatten_blocks_length cs (fun b hb => h b (by simp [hb]))
    simp only [List.flatten_cons, List.length_append, hc]
    omega

theorem xorBytes_length (a b : List Nat) :
    (Crypto.xorBytes a b).length = min a.length b.length := by
  simp [Crypto.xorBytes]

theorem xorBytes_bytes : ∀ (a b : List Nat), (∀ x ∈ a, x < 256) → (∀ x ∈ b, x < 256) →
    ∀ x ∈ Crypto.xorBytes a b, x < 256
  | [], _, _, _ => by simp [Crypto.xorBytes]
  | _ :: _, [], _, _ => by simp [Crypto.xorBytes]
  | x :: a, y :: b, ha, hb => by
    simp only [Crypto.xorBytes, List.zipWith_cons_cons]
    intro z hz
    rcases List.mem_cons.mp hz with heq | hz
    · subst heq
      have h256 : (2 : Nat) ^ 8 = 256 := by norm_num
      rw [← h256]
      exact Nat.xor_lt_two_pow (h256.symm ▸ ha x (by simp)) (h256.symm ▸ hb y (by simp))
    · exact xorBytes_bytes a b (fun u hu => ha u (by simp [hu]))
        (fun u hu => hb u (by simp [hu])) z hz

theorem xorBytes_cancel : ∀ (a b : List Nat), a.length = b.length →
    Crypto.xorBytes (Crypto.xorBytes a b) b = a
  | [], [], _ => rfl
  | [], _ :: _, h => by simp at h
  | _ :: _, [], h => by simp at h
  | x :: a, y :: b, h => by
    simp only [Crypto.xorBytes, List.zipWith_cons_cons]
    rw [show (x ^^^ y) ^^^ y = x from Nat.xor_cancel_right y x]
    exact congrArg (List.cons x) (xorBytes_cancel a b (by simpa using h))

theorem cbcEnc_blocks (E : List Nat → List Nat)
    (hElen : ∀ b, b.length = 16 → (∀ x ∈ b, x < 256) → (E b).length = 16)
    (hEbyte : ∀ b, b.length = 16 → (∀ x ∈ b, x < 256) → ∀ x ∈ E b, x < 256) :
    ∀ (bs : List (List Nat)) (prev : List Nat), prev.length = 16 →
      (∀ x ∈ prev, x < 256) →
      (∀ b ∈ bs, b.length = 16 ∧ ∀ x ∈ b, x < 256) →
      ∀ cb ∈ Crypto.cbcEnc E prev bs, cb.length = 16 ∧ ∀ x ∈ cb, x < 256
  | [], prev, _, _, _ => by simp [Crypto.cbcEnc]
  | b :: bs, prev, hp, hpb, hbs => by
    have hb := hbs b (by simp)
    have hxlen : (Crypto.xorBytes b prev).length = 16 := by
      rw [xorBytes_length, hb.1, hp]
      exact Nat.min_self 16
    have hxb : ∀ x ∈ Crypto.xorBytes b prev, x < 256 := xorBytes_bytes b prev hb.2 hpb
    simp only [Crypto.cbcEnc]
    intro cb hcb
    rcases List.mem_cons.mp hcb with heq | hcb
    · subst heq
      exact ⟨hElen _ hxlen hxb, hEbyte _ hxlen hxb⟩
    · exact cbcEnc_blocks E hElen hEbyte bs _ (hElen _ hxlen hxb) (hEbyte _ hxlen hxb)
        (fun u hu => hbs u (by simp [hu])) cb hcb

theorem cbcDec_cbcEnc (E D : List Nat → List Nat)
    (hED : ∀ b, b.length = 16 → (∀ x ∈ b, x < 256) → D (E b) = b)
    (hElen : ∀ b, b.length = 16 → (∀ x ∈ b, x < 256) → (E b).length = 16)
    (hEbyte : ∀ b, b.length = 16 → (∀ x ∈ b, x < 256) → ∀ x ∈ E b, x < 256) :
    ∀ (bs : List (List Nat)) (prev : List Nat), prev.length = 16 →
      (∀ x ∈ prev, x < 256) →
      (∀ b ∈ bs, b.length = 16 ∧ ∀ x ∈ b, x < 256) →
      Crypto.cbcDec D prev (Crypto.cbcEnc E prev bs) = bs
  | [], prev, _, _, _ => rfl
  | b :: bs, prev, hp, hpb, hbs => by
    have hb := hbs b (by simp)
    have hxlen : (Crypto.xorBytes b prev).length = 16 := by
      rw [xorBytes_length, hb.1, hp]
      exact Nat.min_self 16
    have hxb : ∀ x ∈ Crypto.xorBytes b prev, x < 256 := xorBytes_bytes b prev hb.2 hpb
    simp only [Crypto.cbcEnc, Crypto.cbcDec]
    rw [hED _ hxlen hxb, xorBytes_cancel b prev (by rw [hb.1, hp])]
    rw [cbcDec_cbcEnc E D hED hElen hEbyte bs _ (hElen _ hxlen hxb) (hEbyte _ hxlen hxb)
      (fun u hu => hbs u (by simp [hu]))]

/-! ## C8: the cipher round-trip -/

/-- C8.  For every plaintext byte string, every 16-byte IV as produced by
`generateIvBase64` (base64 of 16 random bytes), and the fixed key — the
AES-256 permutation under that key being the abstract block cipher `E` with
inverse `D` — `decipherValueFromBase64(iv, cipherValueToBase64(iv, P))`
succeeds and returns `P`. -/
theorem cipher_roundtrip (E D : List Nat → List Nat)
    (hED : ∀ b, b.length = 16 → (∀ x ∈ b, x < 256) → D (E b) = b)
    (hElen : ∀ b, b.length = 16 → (∀ x ∈ b, x < 256) → (E b).length = 16)
    (hEbyte : ∀ b, b.length = 16 → (∀ x ∈ b, x < 256) → ∀ x ∈ E b, x < 256)
    (ivBytes value randomIv : List Nat)
    (hivlen : ivBytes.length = 16) (hivb : ∀ x ∈ ivBytes, x < 256)
    (hvb : ∀ x ∈ value, x < 256) :
    ∃ ct, Crypto.cipherValueToBase64 E randomIv (Crypto.b64Encode ivBytes) value
        = .ok ct
      ∧ Crypto.decipherValueFromBase64 D (Crypto.b64Encode ivBytes) ct = .ok value := by
  have hivdec : Crypto.b64Decode (Crypto.b64Encode ivBytes) = ivBytes :=
    b64_decode_encode ivBytes hivb
  have hcc : Crypto.createCipherIv (Crypto.b64Encode ivBytes) = some ivBytes := by
    unfold Crypto.createCipherIv
    rw [hivdec]
    exact if_pos hivlen
  have hbs : ∀ b ∈ Crypto.toBlocks (Crypto.pad16 value), b.length = 16 ∧ ∀ x ∈ b, x < 256 :=
    fun b hb => ⟨toBlocks_length (Crypto.pad16 value) (pad16_length_mod value) b hb,
      toBlocks_bytes (Crypto.pad16 value) (pad16_bytes value hvb) b hb⟩
  have hencB := cbcEnc_blocks E hElen hEbyte (Crypto.toBlocks (Crypto.pad16 value))
    ivBytes hivlen hivb hbs
  have hctb : ∀ x ∈ (Crypto.cbcEnc E ivBytes (Crypto.toBlocks (Crypto.pad16 value))).flatten,
      x < 256 := by
    intro x hx
    obtain ⟨b, hb, hxb⟩ := List.mem_flatten.mp hx
    exact (hencB b hb).2 x hxb
  have hctmod :
      (Crypto.cbcEnc E ivBytes (Crypto.toBlocks (Crypto.pad16 value))).flatten.length % 16
        = 0 :=
    flatten_blocks_length _ (fun b hb => (hencB b hb).1)
  refine ⟨Crypto.b64Encode
    (Crypto.cbcEnc E ivBytes (Crypto.toBlocks (Crypto.pad16 value))).flatten, ?_, ?_⟩
  · unfold Crypto.cipherValueToBase64
    rw [hcc]
  · unfold Crypto.decipherValueFromBase64
    rw [hcc]
    dsimp only
    rw [b64_decode_encode _ hctb, if_pos hctmod,
      toBlocks_of_flatten _ (fun b hb => (hencB b hb).1),
      cbcDec_cbcEnc E D hED hElen hEbyte (Crypto.toBlocks (Crypto.pad16 value))
        ivBytes hivlen hivb hbs,
      toBlocks_flatten (Crypto.pad16 value), unpad16_pad16]

/-- Witness for C8: the identity block permutation, the all-zero 16-byte IV
and the plaintext bytes of `"hi"`. -/
theorem cipher_roundtrip_w :
    ∃ ct, Crypto.cipherValueToBase64 (fun b => b) []
        (Crypto.b64Encode (List.replicate 16 0)) [104, 105] = .ok ct
      ∧ Crypto.decipherValueFromBase64 (fun b => b)
          (Crypto.b64Encode (List.replicate 16 0)) ct = .ok [104, 105] :=
  cipher_roundtrip (fun b => b) (fun b => b) (fun _ _ _ => rfl) (fun _ h _ => h)
    (fun _ _ hb => hb) (List.replicate 16 0) [104, 105] [] (by simp) (by decide) (by decide)

/-! ## C10: the encryption never uses the fallback IV -/

/-- C10.  `cipherValueToBase64` computes a fallback
`iv = ivBase64 || <fresh random iv>` but hands the original `ivBase64` to
`createCipher`: the result is independent of the generated fallback, the
ciphertext of a well-formed (16-byte-decoding) `ivBase64` is produced by CBC
under exactly that IV, and an empty `ivBase64` makes the call fail
(`Invalid initialization vector`) rather than encrypt under the fresh IV. -/
theorem cipher_uses_given_iv (E : List Nat → List Nat)
    (rand1 rand2 ivBase64 value : List Nat) :
    Crypto.cipherValueToBase64 E rand1 ivBase64 value
      = Crypto.cipherValueToBase64 E rand2 ivBase64 value
  ∧ ((Crypto.b64Decode ivBase64).length = 16 →
      Crypto.cipherValueToBase64 E rand1 ivBase64 value
        = .ok (Crypto.b64Encode ((Crypto.cbcEnc E (Crypto.b64Decode ivBase64)
            (Crypto.toBlocks (Crypto.pad16 value))).flatten)))
  ∧ (ivBase64 = [] →
      Crypto.cipherValueToBase64 E rand1 ivBase64 value = .invalidIv) := by
  refine ⟨rfl, ?_, ?_⟩
  · intro hlen
    unfold Crypto.cipherValueToBase64 Crypto.createCipherIv
    rw [if_pos hlen]
  · intro h
    subst h
    rfl

/-- Witness for C10: the fallback-independence and the exact-IV clause at a
well-formed concrete IV, and the failure clause at the empty IV. -/
theorem cipher_uses_given_iv_w :
    Crypto.cipherValueToBase64 (fun b => b) [1] (Crypto.b64Encode (List.replicate 16 0)) [7]
      = Crypto.cipherValueToBase64 (fun b => b) [2] (Crypto.b64Encode (List.replicate 16 0)) [7]
  ∧ Crypto.cipherValueToBase64 (fun b => b) [1] (Crypto.b64Encode (List.replicate 16 0)) [7]
      = .ok (Crypto.b64Encode ((Crypto.cbcEnc (fun b => b)
          (Crypto.b64Decode (Crypto.b64Encode (List.replicate 16 0)))
          (Crypto.toBlocks (Crypto.pad16 [7]))).flatten))
  ∧ Crypto.cipherValueToBase64 (fun b => b) [1] [] [7] = .invalidIv :=
  ⟨(cipher_uses_given_iv (fun b => b) [1] [2] (Crypto.b64Encode (List.replicate 16 0)) [7]).1,
   (cipher_uses_given_iv (fun b => b) [1] [2] (Crypto.b64Encode (List.replicate 16 0)) [7]).2.1
     (by decide),
   (cipher_uses_given_iv (fun b => b) [1] [2] [] [7]).2.2 rfl⟩

end TerraProfile

